import Mathlib

/-!
Shallow embedding of the coroutine scheduler core of
`Source/Engine/Scripting/Coroutines/CoroutineExecutor.cpp`.

Machine `float` time values are modelled as exact rationals and `int32`
counters as unbounded integers: no claim verified here depends on rounding
or overflow.  Debug assertions (`ASSERT`) and `CRASH` abort execution; the
model reports them as a `crash` result.  The outer repeat loop of
`ContinueCoroutine` can run forever, so it is modelled with an explicit
pass budget (`fuel`); exhausting every budget is how the model expresses a
non-terminating call.
-/

/-- Modelled from the spec: `CoroutineSuspendPoint` (the enum's header is
not among the sources); a host-defined set of phase tags containing at
least an Update phase, which the creation operations use for their
immediate advance call. -/
inductive SuspendPoint where
  | update
  | fixedUpdate
  | lateUpdate
  | other (tag : Nat)
deriving DecidableEq, Repr

/-- Delta of elapsed progress since the previous tick: seconds and frames. -/
structure Delta where
  time : ℚ
  frames : ℤ
deriving DecidableEq, Repr

/-- Modelled from the spec: one step of a `CoroutineBuilder` program (the
builder's header is not among the sources).  Payloads follow the spec's
tagged-union description; a WaitUntil predicate is modelled by the boolean
its check currently produces and a Run action by a pure marker, the
callables themselves being opaque external collaborators. -/
inductive Step where
  | run
  | waitSuspensionPoint (tag : SuspendPoint)
  | waitSeconds (secondsDelay : ℚ)
  | waitFrames (framesDelay : ℤ)
  | waitUntil (predicateResult : Bool)
  | noneStep
deriving DecidableEq, Repr

/-- Modelled from the spec: the `InfiniteRepeats` sentinel declared in the
header (not among the sources) meaning an unbounded repeat budget. -/
def InfiniteRepeats : ℤ := -1

/-- Mutable state of `CoroutineExecutor::Execution`; the builder reference
is modelled by the immutable step sequence it provides. -/
structure Execution where
  steps : List Step
  accumulator : Delta
  id : ℕ
  stepIndex : ℕ
  repeats : ℤ
  accumulationPoint : SuspendPoint
  isPaused : Bool
deriving DecidableEq, Repr

/-- Constructor `Execution::Execution` (CoroutineExecutor.cpp:97-110):
zero accumulator, step index 0, not paused. -/
def Execution.create (steps : List Step) (accumulationPoint : SuspendPoint)
    (id : ℕ) (repeats : ℤ) : Execution :=
  { steps := steps
    accumulator := ⟨0, 0⟩
    id := id
    stepIndex := 0
    repeats := repeats
    accumulationPoint := accumulationPoint
    isPaused := false }

/-- `Execution::TryMakeStep` (CoroutineExecutor.cpp:163-228).  Returns
`none` for the fatal `StepType::None` branch (`CRASH`), otherwise
`some (completed, delta, accumulator)` carrying the updated by-reference
arguments.  Note that both wait branches assign the whole local delta to
`Delta{0.0f, 0}` after transferring their own field. -/
def tryMakeStep (step : Step) (point : SuspendPoint) (isAccumulating : Bool)
    (delta accumulator : Delta) : Option (Bool × Delta × Delta) :=
  match step with
  | .run => some (true, delta, accumulator)
  | .waitSuspensionPoint tag => some (tag == point, delta, accumulator)
  | .waitSeconds secondsDelay =>
      if !isAccumulating then
        some (false, delta, accumulator)
      else
        let acc1 : Delta := ⟨accumulator.time + delta.time, accumulator.frames⟩
        if secondsDelay > acc1.time then
          some (false, ⟨0, 0⟩, acc1)
        else
          some (true, ⟨0, 0⟩, ⟨acc1.time - secondsDelay, acc1.frames⟩)
  | .waitFrames framesDelay =>
      if !isAccumulating then
        some (false, delta, accumulator)
      else
        let acc1 : Delta := ⟨accumulator.time, accumulator.frames + delta.frames⟩
        if framesDelay > acc1.frames then
          some (false, ⟨0, 0⟩, acc1)
        else
          some (true, ⟨0, 0⟩, ⟨acc1.time, acc1.frames - framesDelay⟩)
  | .waitUntil predicateResult => some (predicateResult, delta, accumulator)
  | .noneStep => none

/-- Result of the inner step loop of `ContinueCoroutine`
(CoroutineExecutor.cpp:128-137). -/
inductive StepLoopResult where
  | crash
  | stopped (stepIndex : ℕ) (delta accumulator : Delta)
  | completed (delta accumulator : Delta)
deriving DecidableEq, Repr

/-- Inner `while (_stepIndex < steps.Count())` loop: `remaining` is the
step suffix `steps[stepIndex..]` still to interpret in this pass. -/
def runStepsAux (point accumulationPoint : SuspendPoint) :
    List Step → ℕ → Delta → Delta → StepLoopResult
  | [], _, delta, accumulator => .completed delta accumulator
  | step :: remaining, stepIndex, delta, accumulator =>
      match tryMakeStep step point (point == accumulationPoint) delta accumulator with
      | Option.none => .crash
      | Option.some (completed, delta2, accumulator2) =>
          if completed then
            runStepsAux point accumulationPoint remaining (stepIndex + 1) delta2 accumulator2
          else
            .stopped stepIndex delta2 accumulator2

/-- Inner step loop started at index `stepIndex` of the whole step array. -/
def runSteps (steps : List Step) (point accumulationPoint : SuspendPoint)
    (stepIndex : ℕ) (delta accumulator : Delta) : StepLoopResult :=
  runStepsAux point accumulationPoint (steps.drop stepIndex) stepIndex delta accumulator

/-- Result of the outer repeat loop; `outOfFuel` means the loop ran more
full passes than the given budget. -/
inductive PassLoopResult where
  | outOfFuel
  | crash
  | done (finished : Bool) (stepIndex : ℕ) (repeats : ℤ) (accumulator : Delta)
deriving DecidableEq, Repr

/-- Outer `while (_repeats > 0 || _repeats == InfiniteRepeats)` loop of
`ContinueCoroutine` (CoroutineExecutor.cpp:125-143): run one pass over the
remaining steps; on a completed pass reset the step index to 0, decrement a
finite repeat budget and loop. -/
def outerLoop (steps : List Step) (point accumulationPoint : SuspendPoint) :
    ℕ → ℕ → ℤ → Delta → Delta → PassLoopResult
  | 0, stepIndex, repeats, _, accumulator =>
      if 0 < repeats ∨ repeats = InfiniteRepeats then
        .outOfFuel
      else
        .done true stepIndex repeats accumulator
  | fuel + 1, stepIndex, repeats, delta, accumulator =>
      if 0 < repeats ∨ repeats = InfiniteRepeats then
        match runSteps steps point accumulationPoint stepIndex delta accumulator with
        | .crash => .crash
        | .stopped j _ accumulator2 => .done false j repeats accumulator2
        | .completed delta2 accumulator2 =>
            outerLoop steps point accumulationPoint fuel 0
              (if repeats = InfiniteRepeats then repeats else repeats - 1)
              delta2 accumulator2
      else
        .done true stepIndex repeats accumulator

/-- Result of one advance (`ContinueCoroutine`) call on an execution. -/
inductive AdvanceResult where
  | outOfFuel
  | crash
  | done (finished : Bool) (execution : Execution)
deriving DecidableEq, Repr

/-- `Execution::ContinueCoroutine` (CoroutineExecutor.cpp:112-146).  A
paused execution returns not-finished without touching any state.  The two
entry assertions (non-empty step array, non-zero repeat budget) are
modelled as fatal, matching the spec's error taxonomy for checked builds.
Otherwise the outer repeat loop runs on a local copy of the delta, and the
resulting step index, repeat budget and accumulator are stored back. -/
def ContinueCoroutine (e : Execution) (point : SuspendPoint) (delta : Delta)
    (fuel : ℕ) : AdvanceResult :=
  if e.isPaused then
    .done false e
  else if e.steps.length = 0 ∨ e.repeats = 0 then
    .crash
  else
    match outerLoop e.steps point e.accumulationPoint fuel e.stepIndex e.repeats
        delta e.accumulator with
    | .outOfFuel => .outOfFuel
    | .crash => .crash
    | .done finished j r a =>
        .done finished { e with stepIndex := j, repeats := r, accumulator := a }

/-- Proposition that one advance call never returns within any pass budget:
the C++ loop runs forever on these arguments. -/
def AdvanceDiverges (e : Execution) (point : SuspendPoint) (delta : Delta) : Prop :=
  ∀ fuel : ℕ, ContinueCoroutine e point delta fuel = .outOfFuel

/-- Modelled from the spec: `CoroutineHandle` (its header is not among the
sources) — the execution identifier plus the back-reference to the owning
executor, modelled by whether that reference is non-null. -/
structure CoroutineHandle where
  executionID : ℕ
  hasExecutor : Bool
deriving DecidableEq, Repr

/-- Executor registry: live executions in registration order, plus the next
value of the opaque unique-identifier source. -/
structure ExecutorState where
  executions : List Execution
  nextId : ℕ
deriving DecidableEq, Repr

/-- Result of an executor operation; `crash` models `CRASH` or a failed
assertion in a checked build, `outOfFuel` a non-terminating advance loop. -/
inductive OpResult (α : Type) where
  | outOfFuel
  | crash
  | ok (value : α)
deriving DecidableEq, Repr

def OpResult.map {α β : Type} (f : α → β) : OpResult α → OpResult β
  | .outOfFuel => .outOfFuel
  | .crash => .crash
  | .ok a => .ok (f a)

/-- `CoroutineExecutor::ExecuteOnce` (CoroutineExecutor.cpp:8-22): repeat
budget 1 (modelled from the spec: the constructor's defaulted repeat
count), an immediate advance at the Update point with a zero delta, then
registration — even if the immediate advance already finished — and a fresh
handle carrying the generated identifier. -/
def ExecuteOnce (fuel : ℕ) (st : ExecutorState) (steps : List Step)
    (accumulationPoint : SuspendPoint) : OpResult (CoroutineHandle × ExecutorState) :=
  let id := st.nextId
  let e := Execution.create steps accumulationPoint id 1
  match ContinueCoroutine e .update ⟨0, 0⟩ fuel with
  | .outOfFuel => .outOfFuel
  | .crash => .crash
  | .done _ e2 => .ok (⟨id, true⟩, ⟨st.executions ++ [e2], st.nextId + 1⟩)

/-- `CoroutineExecutor::ExecuteRepeats` (CoroutineExecutor.cpp:24-48): a
non-positive repeat count is reported to the log and makes the call a
no-op returning a null handle; otherwise as `ExecuteOnce` with the given
finite repeat budget. -/
def ExecuteRepeats (fuel : ℕ) (st : ExecutorState) (steps : List Step)
    (accumulationPoint : SuspendPoint) (repeats : ℤ) :
    OpResult (Option CoroutineHandle × ExecutorState) :=
  if repeats ≤ 0 then
    .ok (Option.none, st)
  else
    let id := st.nextId
    let e := Execution.create steps accumulationPoint id repeats
    match ContinueCoroutine e .update ⟨0, 0⟩ fuel with
    | .outOfFuel => .outOfFuel
    | .crash => .crash
    | .done _ e2 => .ok (Option.some ⟨id, true⟩, ⟨st.executions ++ [e2], st.nextId + 1⟩)

/-- `CoroutineExecutor::ExecuteLooped` (CoroutineExecutor.cpp:50-64): as
`ExecuteOnce` with the infinite repeat budget. -/
def ExecuteLooped (fuel : ℕ) (st : ExecutorState) (steps : List Step)
    (accumulationPoint : SuspendPoint) : OpResult (CoroutineHandle × ExecutorState) :=
  let id := st.nextId
  let e := Execution.create steps accumulationPoint id InfiniteRepeats
  match ContinueCoroutine e .update ⟨0, 0⟩ fuel with
  | .outOfFuel => .outOfFuel
  | .crash => .crash
  | .done _ e2 => .ok (⟨id, true⟩, ⟨st.executions ++ [e2], st.nextId + 1⟩)

/-- Tick loop of `CoroutineExecutor::Continue` (CoroutineExecutor.cpp:77-86):
index-based scan that advances each slot and moves the cursor only when the
current slot was not removed.  `Array::RemoveAt` is modelled from the spec's
collection contract as ordered removal on a standard growable sequence
(`List.eraseIdx`). -/
def contLoop (fuel : ℕ) (point : SuspendPoint) (delta : Delta) :
    List Execution → ℕ → OpResult (List Execution)
  | l, i =>
      if h : i < l.length then
        match ContinueCoroutine (l.get ⟨i, h⟩) point delta fuel with
        | .outOfFuel => .outOfFuel
        | .crash => .crash
        | .done finished e2 =>
            if finished then
              contLoop fuel point delta (l.eraseIdx i) i
            else
              contLoop fuel point delta (l.set i e2) (i + 1)
      else
        .ok l
termination_by l i => l.length - i
decreasing_by
  all_goals simp [List.length_eraseIdx, h]
  all_goals omega

/-- `CoroutineExecutor::Continue` (CoroutineExecutor.cpp:67-87): builds one
delta from the elapsed time and frame count and runs the removal-tolerant
scan from index 0, keeping the surviving executions. -/
def Continue (fuel : ℕ) (st : ExecutorState) (point : SuspendPoint)
    (frames : ℤ) (deltaTime : ℚ) : OpResult ExecutorState :=
  match contLoop fuel point ⟨deltaTime, frames⟩ st.executions 0 with
  | .outOfFuel => .outOfFuel
  | .crash => .crash
  | .ok l => .ok { st with executions := l }

/-- Modelled from the spec (refinement reference for the tick loop): call
advance exactly once on every registered execution in registration order,
drop exactly those that report finished and keep the survivors in their
relative order. -/
def advanceAllSpec (fuel : ℕ) (point : SuspendPoint) (delta : Delta) :
    List Execution → OpResult (List Execution)
  | [] => .ok []
  | e :: rest =>
      match ContinueCoroutine e point delta fuel with
      | .outOfFuel => .outOfFuel
      | .crash => .crash
      | .done finished e2 =>
          match advanceAllSpec fuel point delta rest with
          | .outOfFuel => .outOfFuel
          | .crash => .crash
          | .ok l => .ok (if finished then l else e2 :: l)

/-- Repeated tick calls, one per element of `params`; each element gives
the suspension point, frame count and delta time of that tick. -/
def runTicks (fuel : ℕ) : List (SuspendPoint × ℤ × ℚ) → ExecutorState →
    OpResult ExecutorState
  | [], st => .ok st
  | (point, frames, deltaTime) :: rest, st =>
      match Continue fuel st point frames deltaTime with
      | .outOfFuel => .outOfFuel
      | .crash => .crash
      | .ok st2 => runTicks fuel rest st2

/-- `CoroutineExecutor::GetCoroutinesCount` (CoroutineExecutor.cpp:89-92). -/
def GetCoroutinesCount (st : ExecutorState) : ℕ :=
  st.executions.length

/-- `CoroutineExecutor::HasFinished` (CoroutineExecutor.cpp:230-241): true
iff no registered execution carries the handle's identifier. -/
def HasFinished (st : ExecutorState) (handle : CoroutineHandle) : Bool :=
  st.executions.all (fun e => !(e.id == handle.executionID))

/-- `CoroutineExecutor::IsPaused` (CoroutineExecutor.cpp:243-254): the
paused flag of the first matching execution, false when none matches. -/
def IsPausedQuery (st : ExecutorState) (handle : CoroutineHandle) : Bool :=
  match st.executions.find? (fun e => e.id == handle.executionID) with
  | Option.none => false
  | Option.some e => e.isPaused

/-- First-match removal scan of `CoroutineExecutor::Cancel`
(CoroutineExecutor.cpp:263-272), with `Array::RemoveAt` modelled from the
spec's collection contract as ordered removal. -/
def removeFirstById (idv : ℕ) : List Execution → Option (List Execution)
  | [] => Option.none
  | e :: rest =>
      if e.id == idv then Option.some rest
      else (removeFirstById idv rest).map (fun l => e :: l)

/-- `CoroutineExecutor::Cancel` (CoroutineExecutor.cpp:259-275): remove the
first execution with the handle's identifier and nullify the handle's
executor back-reference on success; otherwise return false leaving the
registry and the handle unchanged. -/
def Cancel (st : ExecutorState) (handle : CoroutineHandle) :
    Bool × ExecutorState × CoroutineHandle :=
  match removeFirstById handle.executionID st.executions with
  | Option.none => (false, st, handle)
  | Option.some l =>
      (true, { st with executions := l }, { handle with hasExecutor := false })

/-- First-match pause-flag update shared by `Pause` and `Resume`
(CoroutineExecutor.cpp:281-291 and 300-310, with `Execution::SetPaused` of
lines 158-161): the previous flag value of the first execution carrying the
identifier together with the updated registry, or `none` when no execution
matches. -/
def setPausedFirst (idv : ℕ) (value : Bool) :
    List Execution → Option (Bool × List Execution)
  | [] => Option.none
  | e :: rest =>
      if e.id == idv then
        Option.some (e.isPaused, { e with isPaused := value } :: rest)
      else
        (setPausedFirst idv value rest).map (fun p => (p.1, e :: p.2))

/-- `CoroutineExecutor::Pause` (CoroutineExecutor.cpp:277-294): set the
paused flag of the first matching execution, returning whether the flag
actually changed (`!wasPaused`); false when no execution matches. -/
def Pause (st : ExecutorState) (handle : CoroutineHandle) : Bool × ExecutorState :=
  match setPausedFirst handle.executionID true st.executions with
  | Option.none => (false, st)
  | Option.some (wasPaused, l) => (!wasPaused, { st with executions := l })

/-- `CoroutineExecutor::Resume` (CoroutineExecutor.cpp:296-313): clear the
paused flag of the first matching execution, returning whether the flag
actually changed (`wasPaused`); false when no execution matches. -/
def Resume (st : ExecutorState) (handle : CoroutineHandle) : Bool × ExecutorState :=
  match setPausedFirst handle.executionID false st.executions with
  | Option.none => (false, st)
  | Option.some (wasPaused, l) => (wasPaused, { st with executions := l })

/-- Registry lookup by identifier, first match — the order every executor
scan uses. -/
def findExec (st : ExecutorState) (idv : ℕ) : Option Execution :=
  st.executions.find? (fun e => e.id == idv)

/-! ## Basic lemmas about the step interpreter -/

theorem tryMakeStep_eq_none_iff (step : Step) (point : SuspendPoint)
    (isAccumulating : Bool) (delta accumulator : Delta) :
    tryMakeStep step point isAccumulating delta accumulator = Option.none ↔
      step = Step.noneStep := by
  cases step <;> simp only [tryMakeStep] <;> first
    | (split_ifs <;> simp)
    | simp

theorem runStepsAux_stopped_bounds (point ap : SuspendPoint) :
    ∀ (l : List Step) (i j : ℕ) (d a d2 a2 : Delta),
      runStepsAux point ap l i d a = .stopped j d2 a2 →
      i ≤ j ∧ j < i + l.length := by
  intro l
  induction l with
  | nil =>
      intro i j d a d2 a2 h
      simp [runStepsAux] at h
  | cons s rest ih =>
      intro i j d a d2 a2 h
      simp only [runStepsAux] at h
      cases htry : tryMakeStep s point (point == ap) d a with
      | none => rw [htry] at h; cases h
      | some v =>
          obtain ⟨c, d3, a3⟩ := v
          rw [htry] at h
          cases c with
          | true =>
              simp only [if_pos rfl] at h
              have := ih (i + 1) j d3 a3 d2 a2 h
              simp only [List.length_cons]
              omega
          | false =>
              simp only [Bool.false_eq_true, if_neg] at h
              cases h
              simp only [List.length_cons]
              omega

theorem runStepsAux_ne_crash (point ap : SuspendPoint) :
    ∀ (l : List Step) (i : ℕ) (d a : Delta),
      Step.noneStep ∉ l → runStepsAux point ap l i d a ≠ .crash := by
  intro l
  induction l with
  | nil => intro i d a _ h; simp [runStepsAux] at h
  | cons s rest ih =>
      intro i d a hmem h
      simp only [runStepsAux] at h
      cases htry : tryMakeStep s point (point == ap) d a with
      | none =>
          rw [tryMakeStep_eq_none_iff] at htry
          exact hmem (htry ▸ List.mem_cons_self s rest)
      | some v =>
          obtain ⟨c, d3, a3⟩ := v
          rw [htry] at h
          cases c with
          | true =>
              simp only [if_pos rfl] at h
              exact ih (i + 1) d3 a3 (fun hx => hmem (List.mem_cons_of_mem s hx)) h
          | false => simp at h

theorem runSteps_stopped_bounds (steps : List Step) (point ap : SuspendPoint)
    (i j : ℕ) (d a d2 a2 : Delta)
    (h : runSteps steps point ap i d a = .stopped j d2 a2) :
    i ≤ j ∧ j < steps.length := by
  have hb := runStepsAux_stopped_bounds point ap (steps.drop i) i j d a d2 a2 h
  simp only [List.length_drop] at hb
  omega

theorem runSteps_ne_crash (steps : List Step) (point ap : SuspendPoint)
    (i : ℕ) (d a : Delta) (hmem : Step.noneStep ∉ steps) :
    runSteps steps point ap i d a ≠ .crash :=
  runStepsAux_ne_crash point ap (steps.drop i) i d a
    (fun hx => hmem (List.mem_of_mem_drop hx))

/-! ## Lemmas about the outer repeat loop -/

theorem outerLoop_done_invariant (steps : List Step) (point ap : SuspendPoint) :
    ∀ (fuel i : ℕ) (repeats : ℤ) (d a : Delta) (b : Bool) (j : ℕ) (r : ℤ)
      (a2 : Delta),
      -1 ≤ repeats → i ≤ steps.length →
      outerLoop steps point ap fuel i repeats d a = .done b j r a2 →
      j ≤ steps.length ∧ -1 ≤ r ∧ r ≤ repeats ∧ (repeats = -1 → r = -1) ∧
        (b = true → r ≤ 0 ∧ r ≠ -1 ∧ ((j = i ∧ r = repeats) ∨ j = 0)) ∧
        (b = false → (0 < r ∨ r = -1) ∧ j < steps.length) := by
  intro fuel
  induction fuel with
  | zero =>
      intro i repeats d a b j r a2 hrep hidx h
      simp only [outerLoop, InfiniteRepeats] at h
      by_cases hguard : 0 < repeats ∨ repeats = -1
      · rw [if_pos hguard] at h
        cases h
      · rw [if_neg hguard] at h
        cases h
        push_neg at hguard
        refine ⟨hidx, hrep, le_refl _, fun h1 => h1, fun _ => ?_, fun hb => ?_⟩
        · exact ⟨by omega, hguard.2, Or.inl ⟨rfl, rfl⟩⟩
        · cases hb
  | succ fuel ih =>
      intro i repeats d a b j r a2 hrep hidx h
      simp only [outerLoop, InfiniteRepeats] at h
      by_cases hguard : 0 < repeats ∨ repeats = -1
      · rw [if_pos hguard] at h
        cases hrun : runSteps steps point ap i d a with
        | crash => rw [hrun] at h; cases h
        | stopped j2 d2 acc2 =>
            rw [hrun] at h
            cases h
            have hb := runSteps_stopped_bounds steps point ap i j d a d2 a2 hrun
            refine ⟨le_of_lt hb.2, hrep, le_refl _, fun h1 => h1, fun hb1 => ?_,
              fun _ => ⟨hguard, hb.2⟩⟩
            cases hb1
        | completed d2 acc2 =>
            rw [hrun] at h
            have hrep2b : -1 ≤ (if repeats = -1 then repeats else repeats - 1) := by
              split_ifs <;> omega
            have hmain := ih 0 (if repeats = -1 then repeats else repeats - 1)
              d2 acc2 b j r a2 hrep2b (Nat.zero_le _) h
            obtain ⟨h1, h2, h3, h4, h5, h6⟩ := hmain
            have hle : (if repeats = -1 then repeats else repeats - 1) ≤ repeats := by
              split_ifs <;> omega
            refine ⟨h1, h2, le_trans h3 hle, fun hinf => ?_, fun hb1 => ?_, h6⟩
            · exact h4 (by simp [hinf])
            · obtain ⟨g1, g2, g3⟩ := h5 hb1
              refine ⟨g1, g2, Or.inr ?_⟩
              rcases g3 with ⟨hj, _⟩ | hj <;> exact hj
      · rw [if_neg hguard] at h
        cases h
        push_neg at hguard
        refine ⟨hidx, hrep, le_refl _, fun h1 => h1, fun _ => ?_, fun hb => ?_⟩
        · exact ⟨by omega, hguard.2, Or.inl ⟨rfl, rfl⟩⟩
        · cases hb

theorem outerLoop_terminates (steps : List Step) (point ap : SuspendPoint)
    (hnone : Step.noneStep ∉ steps) :
    ∀ (fuel i : ℕ) (repeats : ℤ) (d a : Delta),
      0 ≤ repeats → repeats.toNat ≤ fuel →
      outerLoop steps point ap fuel i repeats d a ≠ .outOfFuel ∧
        outerLoop steps point ap fuel i repeats d a ≠ .crash := by
  intro fuel
  induction fuel with
  | zero =>
      intro i repeats d a hnn hfuel
      have hz : repeats = 0 := by omega
      subst hz
      simp [outerLoop, InfiniteRepeats]
  | succ fuel ih =>
      intro i repeats d a hnn hfuel
      simp only [outerLoop, InfiniteRepeats]
      by_cases hguard : 0 < repeats ∨ repeats = -1
      · rw [if_pos hguard]
        have hpos : 0 < repeats := by omega
        cases hrun : runSteps steps point ap i d a with
        | crash => exact absurd hrun (runSteps_ne_crash steps point ap i d a hnone)
        | stopped j d2 a2 => simp
        | completed d2 a2 =>
            have hif : (if repeats = -1 then repeats else repeats - 1) = repeats - 1 := by
              split_ifs <;> omega
            rw [hif]
            exact ih 0 (repeats - 1) d2 a2 (by omega) (by omega)
      · rw [if_neg hguard]
        simp

/-! ## Lemmas about one advance call -/

theorem ContinueCoroutine_paused (e : Execution) (p : SuspendPoint) (d : Delta)
    (fuel : ℕ) (h : e.isPaused = true) :
    ContinueCoroutine e p d fuel = .done false e := by
  simp [ContinueCoroutine, h]

theorem ContinueCoroutine_not_paused (e : Execution) (p : SuspendPoint)
    (d : Delta) (fuel : ℕ) (hp : e.isPaused = false)
    (h1 : e.steps.length ≠ 0) (h2 : e.repeats ≠ 0) :
    ContinueCoroutine e p d fuel =
      match outerLoop e.steps p e.accumulationPoint fuel e.stepIndex e.repeats d
          e.accumulator with
      | .outOfFuel => .outOfFuel
      | .crash => .crash
      | .done finished j r a =>
          .done finished { e with stepIndex := j, repeats := r, accumulator := a } := by
  simp [ContinueCoroutine, hp, h1, h2]

theorem ContinueCoroutine_done_fields (e : Execution) (p : SuspendPoint)
    (d : Delta) (fuel : ℕ) (b : Bool) (e2 : Execution)
    (h : ContinueCoroutine e p d fuel = .done b e2) :
    e2.id = e.id ∧ e2.steps = e.steps ∧
      e2.accumulationPoint = e.accumulationPoint ∧ e2.isPaused = e.isPaused := by
  by_cases hp : e.isPaused = true
  · rw [ContinueCoroutine_paused e p d fuel hp] at h
    cases h
    exact ⟨rfl, rfl, rfl, rfl⟩
  · have hp2 : e.isPaused = false := by simpa using hp
    by_cases hl : e.steps.length = 0
    · have : ContinueCoroutine e p d fuel = .crash := by
        simp [ContinueCoroutine, hp2, hl]
      rw [this] at h
      cases h
    · by_cases hr : e.repeats = 0
      · have : ContinueCoroutine e p d fuel = .crash := by
          simp [ContinueCoroutine, hp2, hr]
        rw [this] at h
        cases h
      · rw [ContinueCoroutine_not_paused e p d fuel hp2 hl hr] at h
        cases hout : outerLoop e.steps p e.accumulationPoint fuel e.stepIndex
            e.repeats d e.accumulator with
        | outOfFuel => rw [hout] at h; cases h
        | crash => rw [hout] at h; cases h
        | done bb j r a =>
            rw [hout] at h
            cases h
            exact ⟨rfl, rfl, rfl, rfl⟩

theorem outerLoop_run_infinite (p ap : SuspendPoint) :
    ∀ (fuel : ℕ) (d a : Delta),
      outerLoop [Step.run] p ap fuel 0 InfiniteRepeats d a = .outOfFuel := by
  intro fuel
  induction fuel with
  | zero =>
      intro d a
      simp [outerLoop, InfiniteRepeats]
  | succ fuel ih =>
      intro d a
      have hrun : runSteps [Step.run] p ap 0 d a = .completed d a := by
        simp [runSteps, runStepsAux, tryMakeStep]
      simp [outerLoop, InfiniteRepeats, hrun]
      simpa [InfiniteRepeats] using ih d a

theorem ContinueCoroutine_done_cases (e : Execution) (p : SuspendPoint)
    (d : Delta) (fuel : ℕ) (b : Bool) (e2 : Execution)
    (hp : e.isPaused = false) (hl : e.steps.length ≠ 0) (hr : e.repeats ≠ 0)
    (h : ContinueCoroutine e p d fuel = .done b e2) :
    ∃ (j : ℕ) (r : ℤ) (a : Delta),
      outerLoop e.steps p e.accumulationPoint fuel e.stepIndex e.repeats d
          e.accumulator = .done b j r a ∧
      e2 = { e with stepIndex := j, repeats := r, accumulator := a } := by
  rw [ContinueCoroutine_not_paused e p d fuel hp hl hr] at h
  cases hout : outerLoop e.steps p e.accumulationPoint fuel e.stepIndex e.repeats d
      e.accumulator with
  | outOfFuel => rw [hout] at h; cases h
  | crash => rw [hout] at h; cases h
  | done bb j r a =>
      rw [hout] at h
      cases h
      exact ⟨j, r, a, rfl, rfl⟩

/-! ## Claims -/

/-- C1.  The claim states that a WaitSeconds (resp. WaitFrames) step at the
accumulation point zeroes only the corresponding field of the local delta
copy, leaving the other field available for a later WaitFrames (resp.
WaitSeconds) step in the same advance call.  The code instead assigns the
whole local delta to zero: after a WaitSeconds step transfers a delta of
(1.0 s, 1 frame), the returned local delta has frames 0, not 1, and a
subsequent WaitFrames 1 step in the same pass stops with 0 accrued frames
even though the tick supplied the frame it needed. -/
theorem c1_wait_step_clears_whole_delta :
    tryMakeStep (Step.waitSeconds 1) SuspendPoint.update true ⟨1, 1⟩ ⟨0, 0⟩ =
      some (true, ⟨0, 0⟩, ⟨0, 0⟩) ∧
    runSteps [Step.waitSeconds 1, Step.waitFrames 1] SuspendPoint.update
        SuspendPoint.update 0 ⟨1, 1⟩ ⟨0, 0⟩ =
      .stopped 1 ⟨0, 0⟩ ⟨0, 0⟩ := by
  constructor
  · norm_num [tryMakeStep]
  · norm_num [runSteps, runStepsAux, tryMakeStep]

/-- C3 (amended).  One advance call on an execution with a finite repeat
budget (and a well-formed program) terminates, returning not-finished at
the first step that fails to complete or finished once the budget is
exhausted; the infinite-budget instantly-completing case is excluded by the
counterexample below. -/
theorem c3_advance_terminates_for_finite_budget (e : Execution)
    (p : SuspendPoint) (d : Delta) (hfin : 0 < e.repeats)
    (hnone : Step.noneStep ∉ e.steps) (hsteps : e.steps ≠ []) :
    ∃ (b : Bool) (e2 : Execution),
      ContinueCoroutine e p d e.repeats.toNat = .done b e2 := by
  by_cases hp : e.isPaused = true
  · exact ⟨false, e, ContinueCoroutine_paused e p d _ hp⟩
  · have hp2 : e.isPaused = false := by simpa using hp
    have hl : e.steps.length ≠ 0 := by
      simpa [List.length_eq_zero] using hsteps
    have hr : e.repeats ≠ 0 := by omega
    rw [ContinueCoroutine_not_paused e p d _ hp2 hl hr]
    have hterm := outerLoop_terminates e.steps p e.accumulationPoint hnone
      e.repeats.toNat e.stepIndex e.repeats d e.accumulator (by omega) (le_refl _)
    cases hout : outerLoop e.steps p e.accumulationPoint e.repeats.toNat e.stepIndex
        e.repeats d e.accumulator with
    | outOfFuel => exact absurd hout hterm.1
    | crash => exact absurd hout hterm.2
    | done bb j r a => exact ⟨bb, _, rfl⟩

/-- C3 (counterexample).  An infinite-repeat execution whose only step is a
Run step makes the advance loop spin forever: within every pass budget the
call is still running, refuting the claim that advance always returns. -/
theorem c3_counterexample_infinite_run_diverges :
    AdvanceDiverges ⟨[Step.run], ⟨0, 0⟩, 0, 0, InfiniteRepeats,
      SuspendPoint.update, false⟩ SuspendPoint.update ⟨0, 0⟩ := by
  intro fuel
  have hout := outerLoop_run_infinite SuspendPoint.update SuspendPoint.update fuel
    ⟨0, 0⟩ ⟨0, 0⟩
  have hp : (⟨[Step.run], ⟨0, 0⟩, 0, 0, InfiniteRepeats, SuspendPoint.update,
      false⟩ : Execution).isPaused = false := rfl
  rw [ContinueCoroutine_not_paused _ _ _ _ hp (by simp) (by decide)]
  rw [hout]

/-- C3 (witness). -/
theorem c3_advance_terminates_for_finite_budget_witness :
    ∃ (b : Bool) (e2 : Execution),
      ContinueCoroutine ⟨[Step.run], ⟨0, 0⟩, 7, 0, 2, SuspendPoint.update, false⟩
        SuspendPoint.update ⟨1, 1⟩
        (⟨[Step.run], ⟨0, 0⟩, 7, 0, 2, SuspendPoint.update, false⟩ :
          Execution).repeats.toNat = .done b e2 :=
  c3_advance_terminates_for_finite_budget
    ⟨[Step.run], ⟨0, 0⟩, 7, 0, 2, SuspendPoint.update, false⟩
    SuspendPoint.update ⟨1, 1⟩ (by decide) (by simp) (by simp)

/-- C4.  At the accumulation point a WaitSeconds (resp. WaitFrames) step
completes exactly when the accumulated value is at least the configured
threshold, and on completion the threshold is subtracted from the
accumulator, carrying any surplus forward; in particular, with a 2.0 s
threshold and accumulation-point ticks of 1.2 s then 1.0 s, the step
completes on the second tick leaving a 0.2 s surplus. -/
theorem c4_wait_threshold_and_surplus (point : SuspendPoint) (s : ℚ) (n : ℤ)
    (d a : Delta) :
    (tryMakeStep (Step.waitSeconds s) point true d a =
      if s ≤ a.time + d.time then
        some (true, ⟨0, 0⟩, ⟨a.time + d.time - s, a.frames⟩)
      else
        some (false, ⟨0, 0⟩, ⟨a.time + d.time, a.frames⟩)) ∧
    (tryMakeStep (Step.waitFrames n) point true d a =
      if n ≤ a.frames + d.frames then
        some (true, ⟨0, 0⟩, ⟨a.time, a.frames + d.frames - n⟩)
      else
        some (false, ⟨0, 0⟩, ⟨a.time, a.frames + d.frames⟩)) ∧
    tryMakeStep (Step.waitSeconds 2) point true ⟨6/5, 0⟩ ⟨0, 0⟩ =
      some (false, ⟨0, 0⟩, ⟨6/5, 0⟩) ∧
    tryMakeStep (Step.waitSeconds 2) point true ⟨1, 0⟩ ⟨6/5, 0⟩ =
      some (true, ⟨0, 0⟩, ⟨1/5, 0⟩) := by
  refine ⟨?_, ?_, ?_, ?_⟩
  · simp only [tryMakeStep, Bool.not_true, Bool.false_eq_true, if_false]
    split_ifs with h1 h2 h2 <;> first | rfl | (exfalso; simp at *; linarith)
  · simp only [tryMakeStep, Bool.not_true, Bool.false_eq_true, if_false]
    split_ifs with h1 h2 h2 <;> first | rfl | (exfalso; simp at *; omega)
  · norm_num [tryMakeStep]
  · norm_num [tryMakeStep]

/-- C6.  startRepeated with a non-positive repeat count is a reported
no-op: the result is an ok (never fatal) null handle with the executor
state — in particular the registry — unchanged. -/
theorem c6_execute_repeats_nonpositive_noop (fuel : ℕ) (st : ExecutorState)
    (steps : List Step) (accumulationPoint : SuspendPoint) (repeats : ℤ)
    (hrep : repeats ≤ 0) :
    ExecuteRepeats fuel st steps accumulationPoint repeats =
      .ok (Option.none, st) := by
  simp [ExecuteRepeats, hrep]

/-- C6 (witness), at repeat counts 0 and -1. -/
theorem c6_execute_repeats_nonpositive_noop_witness :
    ExecuteRepeats 1 ⟨[], 0⟩ [Step.run] SuspendPoint.update 0 =
      .ok (Option.none, ⟨[], 0⟩) ∧
    ExecuteRepeats 1 ⟨[], 0⟩ [Step.run] SuspendPoint.update (-1) =
      .ok (Option.none, ⟨[], 0⟩) :=
  ⟨c6_execute_repeats_nonpositive_noop 1 ⟨[], 0⟩ [Step.run] SuspendPoint.update 0
      (by norm_num),
   c6_execute_repeats_nonpositive_noop 1 ⟨[], 0⟩ [Step.run] SuspendPoint.update (-1)
      (by norm_num)⟩

/-- C9.  One advance call keeps the step index within [0, stepCount]; the
repeat budget is preserved when infinite, never increases, reaches 0 only
when a finished result is produced from a positive finite budget (with the
step index reset to 0 by the completed passes), and a not-finished result
always leaves a budget that is positive or infinite; moreover, within one
pass the inner step loop only moves the step index forward and keeps it
below the step count. -/
theorem c9_step_index_and_repeats_invariants (e : Execution) (p : SuspendPoint)
    (d : Delta) (fuel : ℕ) (b : Bool) (e2 : Execution)
    (hrep : 0 < e.repeats ∨ e.repeats = InfiniteRepeats)
    (hidx : e.stepIndex ≤ e.steps.length)
    (hadv : ContinueCoroutine e p d fuel = .done b e2) :
    (e2.stepIndex ≤ e.steps.length ∧
      (e.repeats = InfiniteRepeats → e2.repeats = InfiniteRepeats) ∧
      e2.repeats ≤ e.repeats ∧
      (b = true → e2.repeats = 0 ∧ 0 < e.repeats ∧ e2.stepIndex = 0) ∧
      (b = false → (0 < e2.repeats ∨ e2.repeats = InfiniteRepeats))) ∧
    (∀ (i j : ℕ) (d0 a0 d2 a2 : Delta),
      runSteps e.steps p e.accumulationPoint i d0 a0 = .stopped j d2 a2 →
      i ≤ j ∧ j < e.steps.length) := by
  constructor
  · have hrm1 : -1 ≤ e.repeats := by
      rcases hrep with h | h
      · omega
      · rw [h]; decide
    have hr0 : e.repeats ≠ 0 := by
      rcases hrep with h | h
      · omega
      · rw [h]; decide
    by_cases hp : e.isPaused = true
    · rw [ContinueCoroutine_paused e p d fuel hp] at hadv
      cases hadv
      refine ⟨hidx, fun h => h, le_refl _, fun hb => ?_, fun _ => hrep⟩
      exact absurd hb (by decide)
    · have hp2 : e.isPaused = false := by simpa using hp
      by_cases hl : e.steps.length = 0
      · exfalso
        have hcrash : ContinueCoroutine e p d fuel = .crash := by
          simp [ContinueCoroutine, hp2, hl]
        rw [hcrash] at hadv
        cases hadv
      · obtain ⟨j, r, a, hout, he2⟩ :=
          ContinueCoroutine_done_cases e p d fuel b e2 hp2 hl hr0 hadv
        obtain ⟨h1, h2, h3, h4, h5, h6⟩ :=
          outerLoop_done_invariant e.steps p e.accumulationPoint fuel e.stepIndex
            e.repeats d e.accumulator b j r a hrm1 hidx hout
        subst he2
        simp only [InfiniteRepeats] at hrep ⊢
        refine ⟨h1, fun hinf => h4 hinf, h3, fun hb => ?_, fun hb => ?_⟩
        · obtain ⟨g1, g2, g3⟩ := h5 hb
          have hr : r = 0 := by omega
          have hpos : 0 < e.repeats := by
            rcases hrep with h | h
            · exact h
            · exact absurd (h4 h) (hr ▸ by decide)
          refine ⟨hr, hpos, ?_⟩
          rcases g3 with ⟨hj, hre⟩ | hj
          · omega
          · exact hj
        · exact h6 hb |>.1
  · intro i j d0 a0 d2 a2 h
    exact runSteps_stopped_bounds e.steps p e.accumulationPoint i j d0 a0 d2 a2 h

/-- C9 (witness): a two-repeat single-Run-step execution finishing in one
call. -/
theorem c9_step_index_and_repeats_invariants_witness :
    ((⟨[Step.run], ⟨0, 0⟩, 3, 0, 0, SuspendPoint.update, false⟩ : Execution).stepIndex ≤
        ([Step.run] : List Step).length ∧
      ((2 : ℤ) = InfiniteRepeats → (0 : ℤ) = InfiniteRepeats) ∧
      (0 : ℤ) ≤ 2 ∧
      (true = true → (0 : ℤ) = 0 ∧ (0 : ℤ) < 2 ∧
        (⟨[Step.run], ⟨0, 0⟩, 3, 0, 0, SuspendPoint.update, false⟩ : Execution).stepIndex = 0) ∧
      (true = false → ((0 : ℤ) < 0 ∨ (0 : ℤ) = InfiniteRepeats))) ∧
    (∀ (i j : ℕ) (d0 a0 d2 a2 : Delta),
      runSteps [Step.run] SuspendPoint.update SuspendPoint.update i d0 a0 =
        .stopped j d2 a2 →
      i ≤ j ∧ j < ([Step.run] : List Step).length) := by
  have h := c9_step_index_and_repeats_invariants
    ⟨[Step.run], ⟨0, 0⟩, 3, 0, 2, SuspendPoint.update, false⟩ SuspendPoint.update
    ⟨1, 1⟩ 2 true ⟨[Step.run], ⟨0, 0⟩, 3, 0, 0, SuspendPoint.update, false⟩
    (by norm_num) (by norm_num)
    (by norm_num [ContinueCoroutine, outerLoop, runSteps, runStepsAux, tryMakeStep,
      InfiniteRepeats])
  exact h

/-! ## The tick loop advances each execution exactly once, in order -/

theorem list_get_append_cons {α : Type} (pre : List α) (x : α) (suf : List α)
    (h : pre.length < (pre ++ x :: suf).length) :
    (pre ++ x :: suf).get ⟨pre.length, h⟩ = x := by
  induction pre with
  | nil => rfl
  | cons a pre ih => simpa using ih (by simpa using h)

theorem list_eraseIdx_append_cons {α : Type} (pre : List α) (x : α)
    (suf : List α) : (pre ++ x :: suf).eraseIdx pre.length = pre ++ suf := by
  induction pre with
  | nil => rfl
  | cons a pre ih => simpa [List.eraseIdx] using ih

theorem list_set_append_cons {α : Type} (pre : List α) (x y : α)
    (suf : List α) : (pre ++ x :: suf).set pre.length y = pre ++ y :: suf := by
  induction pre with
  | nil => rfl
  | cons a pre ih => simpa [List.set] using ih

theorem contLoop_append (fuel : ℕ) (p : SuspendPoint) (d : Delta) :
    ∀ (suf pre : List Execution),
      contLoop fuel p d (pre ++ suf) pre.length =
        OpResult.map (fun l => pre ++ l) (advanceAllSpec fuel p d suf) := by
  intro suf
  induction suf with
  | nil =>
      intro pre
      rw [contLoop]
      simp [advanceAllSpec, OpResult.map]
  | cons x rest ih =>
      intro pre
      rw [contLoop]
      have hlt : pre.length < (pre ++ x :: rest).length := by simp
      rw [dif_pos hlt, list_get_append_cons pre x rest hlt]
      cases hadv : ContinueCoroutine x p d fuel with
      | outOfFuel => simp [advanceAllSpec, hadv, OpResult.map]
      | crash => simp [advanceAllSpec, hadv, OpResult.map]
      | done finished e2 =>
          cases finished with
          | true =>
              simp only [if_pos rfl, list_eraseIdx_append_cons]
              rw [ih pre]
              simp only [advanceAllSpec, hadv]
              cases advanceAllSpec fuel p d rest <;> simp [OpResult.map]
          | false =>
              simp only [Bool.false_eq_true, if_neg, list_set_append_cons]
              have hstep := ih (pre ++ [e2])
              rw [List.append_assoc] at hstep
              simp only [List.singleton_append, List.length_append,
                List.length_singleton] at hstep
              rw [hstep]
              simp only [advanceAllSpec, hadv]
              cases advanceAllSpec fuel p d rest <;> simp [OpResult.map]

theorem Continue_eq_advanceAllSpec (fuel : ℕ) (st : ExecutorState)
    (point : SuspendPoint) (frames : ℤ) (deltaTime : ℚ) :
    Continue fuel st point frames deltaTime =
      OpResult.map (fun l => { st with executions := l })
        (advanceAllSpec fuel point ⟨deltaTime, frames⟩ st.executions) := by
  unfold Continue
  have h := contLoop_append fuel point ⟨deltaTime, frames⟩ st.executions []
  simp only [List.nil_append, List.length_nil] at h
  rw [h]
  cases advanceAllSpec fuel point ⟨deltaTime, frames⟩ st.executions <;>
    simp [OpResult.map]

/-- C8.  A tick builds one delta from the given frames and delta time and
is the removal-tolerant scan refined by the specification loop: advance is
called exactly once on every execution registered at the start of the call,
in registration order; exactly the executions reporting finished are
removed in the same pass, and the survivors keep their relative order. -/
theorem c8_tick_advances_each_once_in_order (fuel : ℕ) (st : ExecutorState)
    (point : SuspendPoint) (frames : ℤ) (deltaTime : ℚ) :
    Continue fuel st point frames deltaTime =
      OpResult.map (fun l => { st with executions := l })
        (advanceAllSpec fuel point ⟨deltaTime, frames⟩ st.executions) :=
  Continue_eq_advanceAllSpec fuel st point frames deltaTime

/-- C2.  On a one-Run-step program, ExecuteOnce registers the execution
already finished (its repeat budget is 0, and the handle does not yet
report finished); the next tick then calls ContinueCoroutine on it, whose
entry assertion `_repeats != 0` fails — in a checked build the reaping tick
is fatal, contradicting the claim that the reap happens with no fatal
condition. -/
theorem c2_reap_tick_hits_repeat_assert :
    ExecuteOnce 1 ⟨[], 0⟩ [Step.run] SuspendPoint.update =
      .ok (⟨0, true⟩,
        ⟨[⟨[Step.run], ⟨0, 0⟩, 0, 0, 0, SuspendPoint.update, false⟩], 1⟩) ∧
    HasFinished ⟨[⟨[Step.run], ⟨0, 0⟩, 0, 0, 0, SuspendPoint.update, false⟩], 1⟩
      ⟨0, true⟩ = false ∧
    (⟨[Step.run], ⟨0, 0⟩, 0, 0, 0, SuspendPoint.update, false⟩ : Execution).repeats
      = 0 ∧
    Continue 1 ⟨[⟨[Step.run], ⟨0, 0⟩, 0, 0, 0, SuspendPoint.update, false⟩], 1⟩
      SuspendPoint.update 1 (1/60) = .crash := by
  refine ⟨?_, ?_, rfl, ?_⟩
  · norm_num [ExecuteOnce, ContinueCoroutine, Execution.create, outerLoop,
      runSteps, runStepsAux, tryMakeStep, InfiniteRepeats]
  · norm_num [HasFinished]
  · rw [Continue_eq_advanceAllSpec]
    norm_num [advanceAllSpec, ContinueCoroutine, OpResult.map]

/-! ## Cancellation -/

theorem removeFirstById_none_iff (idv : ℕ) : ∀ (l : List Execution),
    removeFirstById idv l = Option.none ↔ ∀ e ∈ l, e.id ≠ idv := by
  intro l
  induction l with
  | nil => simp [removeFirstById]
  | cons x rest ih =>
      simp only [removeFirstById]
      by_cases hx : x.id = idv
      · simp [hx]
      · rw [if_neg (by simpa using hx)]
        simp [Option.map_eq_none', ih, hx]

theorem removeFirstById_found (idv : ℕ) : ∀ (l : List Execution) (e : Execution),
    e ∈ l → e.id = idv → (l.map Execution.id).Nodup →
    ∃ l2, removeFirstById idv l = Option.some l2 ∧ l2.length + 1 = l.length ∧
      ∀ x ∈ l2, x ∈ l ∧ x.id ≠ idv := by
  intro l
  induction l with
  | nil =>
      intro e h
      cases h
  | cons y rest ih =>
      intro e hmem hid hnodup
      simp only [List.map_cons, List.nodup_cons, List.mem_map] at hnodup
      by_cases hy : y.id = idv
      · refine ⟨rest, by simp [removeFirstById, hy], by simp, ?_⟩
        intro x hx
        refine ⟨List.mem_cons_of_mem y hx, fun hxid => ?_⟩
        exact hnodup.1 ⟨x, hx, by rw [hxid, hy]⟩
      · have herest : e ∈ rest := by
          rcases List.mem_cons.mp hmem with he | he
          · exact absurd (he ▸ hid) hy
          · exact he
        obtain ⟨l2, h1, h2, h3⟩ := ih e herest hid hnodup.2
        refine ⟨y :: l2, ?_, by simpa using h2, ?_⟩
        · simp [removeFirstById, hy, h1]
        · intro x hx
          rcases List.mem_cons.mp hx with hxy | hx2
          · subst hxy
            exact ⟨List.mem_cons_self _ _, hy⟩
          · obtain ⟨hm, hne⟩ := h3 x hx2
            exact ⟨List.mem_cons_of_mem y hm, hne⟩

/-- C5.  Cancel on a handle with no registered execution of that id returns
false and leaves the registry and the handle unchanged; on a registered id
it returns true, nullifies the handle's executor back-reference (keeping
its id), shrinks the registry by exactly that execution — so the handle
reports finished and no registered execution carries the id any more
(hence no subsequent tick can advance it). -/
theorem c5_cancel_behavior (st : ExecutorState) (h : CoroutineHandle) :
    ((∀ e ∈ st.executions, e.id ≠ h.executionID) → Cancel st h = (false, st, h)) ∧
    (∀ e, e ∈ st.executions → e.id = h.executionID →
      (st.executions.map Execution.id).Nodup →
      (Cancel st h).1 = true ∧
      (Cancel st h).2.2.hasExecutor = false ∧
      (Cancel st h).2.2.executionID = h.executionID ∧
      HasFinished (Cancel st h).2.1 h = true ∧
      GetCoroutinesCount (Cancel st h).2.1 + 1 = GetCoroutinesCount st ∧
      (∀ x ∈ (Cancel st h).2.1.executions,
        x ∈ st.executions ∧ x.id ≠ h.executionID)) := by
  constructor
  · intro hnone
    have hrm : removeFirstById h.executionID st.executions = Option.none :=
      (removeFirstById_none_iff _ _).mpr hnone
    simp [Cancel, hrm]
  · intro e hmem hid hnodup
    obtain ⟨l2, h1, h2, h3⟩ :=
      removeFirstById_found h.executionID st.executions e hmem hid hnodup
    simp only [Cancel, h1]
    refine ⟨trivial, trivial, trivial, ?_, by simpa [GetCoroutinesCount] using h2,
      fun x hx => h3 x hx⟩
    simp only [HasFinished, List.all_eq_true]
    intro x hx
    simpa using (h3 x hx).2

/-- C5 (witness): cancelling an unknown handle, then a registered one. -/
theorem c5_cancel_behavior_witness :
    (Cancel ⟨[⟨[Step.run], ⟨0, 0⟩, 0, 0, 1, SuspendPoint.update, false⟩], 1⟩
        ⟨5, true⟩ =
      (false, ⟨[⟨[Step.run], ⟨0, 0⟩, 0, 0, 1, SuspendPoint.update, false⟩], 1⟩,
        ⟨5, true⟩)) ∧
    ((Cancel ⟨[⟨[Step.run], ⟨0, 0⟩, 0, 0, 1, SuspendPoint.update, false⟩], 1⟩
        ⟨0, true⟩).1 = true ∧
      (Cancel ⟨[⟨[Step.run], ⟨0, 0⟩, 0, 0, 1, SuspendPoint.update, false⟩], 1⟩
        ⟨0, true⟩).2.2.hasExecutor = false ∧
      (Cancel ⟨[⟨[Step.run], ⟨0, 0⟩, 0, 0, 1, SuspendPoint.update, false⟩], 1⟩
        ⟨0, true⟩).2.2.executionID = (⟨0, true⟩ : CoroutineHandle).executionID ∧
      HasFinished
        (Cancel ⟨[⟨[Step.run], ⟨0, 0⟩, 0, 0, 1, SuspendPoint.update, false⟩], 1⟩
          ⟨0, true⟩).2.1 ⟨0, true⟩ = true ∧
      GetCoroutinesCount
        (Cancel ⟨[⟨[Step.run], ⟨0, 0⟩, 0, 0, 1, SuspendPoint.update, false⟩], 1⟩
          ⟨0, true⟩).2.1 + 1 =
        GetCoroutinesCount
          ⟨[⟨[Step.run], ⟨0, 0⟩, 0, 0, 1, SuspendPoint.update, false⟩], 1⟩ ∧
      (∀ x ∈ (Cancel ⟨[⟨[Step.run], ⟨0, 0⟩, 0, 0, 1, SuspendPoint.update,
          false⟩], 1⟩ ⟨0, true⟩).2.1.executions,
        x ∈ (⟨[⟨[Step.run], ⟨0, 0⟩, 0, 0, 1, SuspendPoint.update, false⟩],
          1⟩ : ExecutorState).executions ∧
        x.id ≠ (⟨0, true⟩ : CoroutineHandle).executionID)) :=
  ⟨(c5_cancel_behavior _ _).1 (by decide),
   (c5_cancel_behavior _ _).2
     ⟨[Step.run], ⟨0, 0⟩, 0, 0, 1, SuspendPoint.update, false⟩
     (by simp) rfl (by simp)⟩

/-! ## Pause and resume -/

theorem find_cons_pos (idv : ℕ) (y : Execution) (rest : List Execution)
    (hy : (y.id == idv) = true) :
    (y :: rest).find? (fun x => x.id == idv) = Option.some y := by
  simp [List.find?, hy]

theorem find_cons_neg (idv : ℕ) (y : Execution) (rest : List Execution)
    (hy : (y.id == idv) = false) :
    (y :: rest).find? (fun x => x.id == idv) =
      rest.find? (fun x => x.id == idv) := by
  simp [List.find?, hy]

theorem find_append_first (idv : ℕ) (e : Execution) (suf : List Execution)
    (he : e.id = idv) :
    ∀ (pre : List Execution), (∀ x ∈ pre, x.id ≠ idv) →
      (pre ++ e :: suf).find? (fun x => x.id == idv) = Option.some e := by
  intro pre
  induction pre with
  | nil =>
      intro _
      rw [List.nil_append]
      exact find_cons_pos idv e suf (by simpa using he)
  | cons y pre ih =>
      intro hpre
      have hy : (y.id == idv) = false := by
        simpa using hpre y (List.mem_cons_self _ _)
      rw [List.cons_append, find_cons_neg idv y _ hy]
      exact ih (fun x hx => hpre x (List.mem_cons_of_mem _ hx))

theorem setPausedFirst_spec (idv : ℕ) (v : Bool) :
    ∀ (l : List Execution) (e : Execution),
      l.find? (fun x => x.id == idv) = Option.some e →
      ∃ pre suf, l = pre ++ e :: suf ∧ (∀ x ∈ pre, x.id ≠ idv) ∧
        setPausedFirst idv v l =
          Option.some (e.isPaused, pre ++ { e with isPaused := v } :: suf) := by
  intro l
  induction l with
  | nil =>
      intro e h
      simp [List.find?] at h
  | cons y rest ih =>
      intro e hf
      by_cases hy : (y.id == idv) = true
      · rw [find_cons_pos idv y rest hy] at hf
        cases hf
        refine ⟨[], rest, rfl, by simp, ?_⟩
        simp [setPausedFirst, hy]
      · have hy2 : (y.id == idv) = false := by simpa using hy
        rw [find_cons_neg idv y rest hy2] at hf
        obtain ⟨pre, suf, hl, hpre, hset⟩ := ih e hf
        refine ⟨y :: pre, suf, by rw [hl, List.cons_append], ?_, ?_⟩
        · intro x hx
          rcases List.mem_cons.mp hx with hx | hx
          · subst hx
            simpa using hy2
          · exact hpre x hx
        · simp [setPausedFirst, hy2, hset]

theorem setPausedFirst_not_found (idv : ℕ) (v : Bool) :
    ∀ (l : List Execution), l.find? (fun x => x.id == idv) = Option.none →
      setPausedFirst idv v l = Option.none := by
  intro l
  induction l with
  | nil => intro _; rfl
  | cons y rest ih =>
      intro hf
      have hy : (y.id == idv) = false := by
        rcases Bool.eq_false_or_eq_true (y.id == idv) with hb | hb
        · rw [find_cons_pos idv y rest hb] at hf
          cases hf
        · exact hb
      rw [find_cons_neg idv y rest hy] at hf
      simp [setPausedFirst, hy, ih hf]

theorem Pause_not_found (st : ExecutorState) (h : CoroutineHandle)
    (hf : findExec st h.executionID = Option.none) :
    Pause st h = (false, st) := by
  simp [Pause, setPausedFirst_not_found h.executionID true st.executions hf]

theorem Resume_not_found (st : ExecutorState) (h : CoroutineHandle)
    (hf : findExec st h.executionID = Option.none) :
    Resume st h = (false, st) := by
  simp [Resume, setPausedFirst_not_found h.executionID false st.executions hf]

theorem Pause_found (st : ExecutorState) (h : CoroutineHandle) (e : Execution)
    (hf : findExec st h.executionID = Option.some e) :
    ∃ pre suf, st.executions = pre ++ e :: suf ∧
      (∀ x ∈ pre, x.id ≠ h.executionID) ∧ e.id = h.executionID ∧
      Pause st h = (!e.isPaused,
        { st with executions := pre ++ { e with isPaused := true } :: suf }) := by
  obtain ⟨pre, suf, hl, hpre, hset⟩ :=
    setPausedFirst_spec h.executionID true st.executions e hf
  have hid : e.id = h.executionID := by
    simpa using List.find?_some hf
  exact ⟨pre, suf, hl, hpre, hid, by simp [Pause, hset]⟩

theorem Resume_found (st : ExecutorState) (h : CoroutineHandle) (e : Execution)
    (hf : findExec st h.executionID = Option.some e) :
    ∃ pre suf, st.executions = pre ++ e :: suf ∧
      (∀ x ∈ pre, x.id ≠ h.executionID) ∧ e.id = h.executionID ∧
      Resume st h = (e.isPaused,
        { st with executions := pre ++ { e with isPaused := false } :: suf }) := by
  obtain ⟨pre, suf, hl, hpre, hset⟩ :=
    setPausedFirst_spec h.executionID false st.executions e hf
  have hid : e.id = h.executionID := by
    simpa using List.find?_some hf
  exact ⟨pre, suf, hl, hpre, hid, by simp [Resume, hset]⟩

/-- C10.  Whenever the handle's execution is found, Pause leaves its paused
flag true and Resume leaves it false, regardless of the prior value; the
returned boolean only reports whether the flag changed (`!wasPaused` for
Pause, `wasPaused` for Resume); and on the executor state both operations
are idempotent — a second identical call leaves the same state. -/
theorem c10_pause_resume_idempotent (st : ExecutorState) (h : CoroutineHandle) :
    (Pause (Pause st h).2 h).2 = (Pause st h).2 ∧
    (Resume (Resume st h).2 h).2 = (Resume st h).2 ∧
    (∀ e, findExec st h.executionID = Option.some e →
      findExec (Pause st h).2 h.executionID =
        Option.some { e with isPaused := true } ∧
      findExec (Resume st h).2 h.executionID =
        Option.some { e with isPaused := false } ∧
      (Pause st h).1 = !e.isPaused ∧
      (Resume st h).1 = e.isPaused) := by
  cases hfe : findExec st h.executionID with
  | none =>
      rw [Pause_not_found st h hfe, Resume_not_found st h hfe]
      refine ⟨?_, ?_, fun e he => by cases he⟩
      · rw [Pause_not_found st h hfe]
      · rw [Resume_not_found st h hfe]
  | some e =>
      obtain ⟨pre, suf, hl, hpre, hid, hP⟩ := Pause_found st h e hfe
      obtain ⟨preR, sufR, hlR, hpreR, _, hR⟩ := Resume_found st h e hfe
      have hfP : findExec (Pause st h).2 h.executionID =
          Option.some { e with isPaused := true } := by
        rw [hP]
        exact find_append_first h.executionID { e with isPaused := true } suf hid
          pre hpre
      have hfR : findExec (Resume st h).2 h.executionID =
          Option.some { e with isPaused := false } := by
        rw [hR]
        exact find_append_first h.executionID { e with isPaused := false } sufR hid
          preR hpreR
      refine ⟨?_, ?_, fun e2 he2 => ?_⟩
      · obtain ⟨pre2, suf2, hl2, hpre2, hid2, hP2⟩ :=
          Pause_found (Pause st h).2 h _ hfP
        rw [hP2]
        have hsame : ({ { e with isPaused := true } with isPaused := true } :
            Execution) = { e with isPaused := true } := rfl
        rw [hsame, ← hl2]
      · obtain ⟨pre2, suf2, hl2, hpre2, hid2, hR2⟩ :=
          Resume_found (Resume st h).2 h _ hfR
        rw [hR2]
        have hsame : ({ { e with isPaused := false } with isPaused := false } :
            Execution) = { e with isPaused := false } := rfl
        rw [hsame, ← hl2]
      · cases he2
        exact ⟨hfP, hfR, by rw [hP], by rw [hR]⟩

/-- C10 (witness): a found handle, on an initially unpaused execution. -/
theorem c10_pause_resume_idempotent_witness :
    (Pause (Pause ⟨[⟨[Step.run], ⟨0, 0⟩, 0, 0, 1, SuspendPoint.update,
        false⟩], 1⟩ ⟨0, true⟩).2 ⟨0, true⟩).2 =
      (Pause ⟨[⟨[Step.run], ⟨0, 0⟩, 0, 0, 1, SuspendPoint.update, false⟩], 1⟩
        ⟨0, true⟩).2 ∧
    (Resume (Resume ⟨[⟨[Step.run], ⟨0, 0⟩, 0, 0, 1, SuspendPoint.update,
        false⟩], 1⟩ ⟨0, true⟩).2 ⟨0, true⟩).2 =
      (Resume ⟨[⟨[Step.run], ⟨0, 0⟩, 0, 0, 1, SuspendPoint.update, false⟩], 1⟩
        ⟨0, true⟩).2 ∧
    (∀ e, findExec ⟨[⟨[Step.run], ⟨0, 0⟩, 0, 0, 1, SuspendPoint.update,
        false⟩], 1⟩ (⟨0, true⟩ : CoroutineHandle).executionID =
        Option.some e →
      findExec (Pause ⟨[⟨[Step.run], ⟨0, 0⟩, 0, 0, 1, SuspendPoint.update,
          false⟩], 1⟩ ⟨0, true⟩).2
          (⟨0, true⟩ : CoroutineHandle).executionID =
        Option.some { e with isPaused := true } ∧
      findExec (Resume ⟨[⟨[Step.run], ⟨0, 0⟩, 0, 0, 1, SuspendPoint.update,
          false⟩], 1⟩ ⟨0, true⟩).2
          (⟨0, true⟩ : CoroutineHandle).executionID =
        Option.some { e with isPaused := false } ∧
      (Pause ⟨[⟨[Step.run], ⟨0, 0⟩, 0, 0, 1, SuspendPoint.update, false⟩], 1⟩
        ⟨0, true⟩).1 = !e.isPaused ∧
      (Resume ⟨[⟨[Step.run], ⟨0, 0⟩, 0, 0, 1, SuspendPoint.update, false⟩], 1⟩
        ⟨0, true⟩).1 = e.isPaused) :=
  c10_pause_resume_idempotent
    ⟨[⟨[Step.run], ⟨0, 0⟩, 0, 0, 1, SuspendPoint.update, false⟩], 1⟩ ⟨0, true⟩

/-! ## Ticks do not touch paused executions -/

theorem advanceAllSpec_ids_sublist (fuel : ℕ) (p : SuspendPoint) (d : Delta) :
    ∀ (l l2 : List Execution), advanceAllSpec fuel p d l = .ok l2 →
      (l2.map Execution.id).Sublist (l.map Execution.id) := by
  intro l
  induction l with
  | nil =>
      intro l2 h
      simp only [advanceAllSpec] at h
      cases h
      simp
  | cons x rest ih =>
      intro l2 h
      simp only [advanceAllSpec] at h
      cases hadv : ContinueCoroutine x p d fuel with
      | outOfFuel => rw [hadv] at h; cases h
      | crash => rw [hadv] at h; cases h
      | done b x2 =>
          rw [hadv] at h
          cases hrest : advanceAllSpec fuel p d rest with
          | outOfFuel => rw [hrest] at h; cases h
          | crash => rw [hrest] at h; cases h
          | ok rest2 =>
              rw [hrest] at h
              have hsub := ih rest2 hrest
              have hid2 : x2.id = x.id :=
                (ContinueCoroutine_done_fields x p d fuel b x2 hadv).1
              cases b with
              | true =>
                  simp only [if_pos rfl] at h
                  cases h
                  exact hsub.cons x.id
              | false =>
                  simp only [Bool.false_eq_true, if_neg, not_false_eq_true] at h
                  cases h
                  simp only [List.map_cons, hid2]
                  exact hsub.cons₂ x.id

theorem advanceAllSpec_preserves_found_paused (fuel : ℕ) (p : SuspendPoint)
    (d : Delta) (idv : ℕ) :
    ∀ (l l2 : List Execution) (eP : Execution),
      l.find? (fun x => x.id == idv) = Option.some eP →
      eP.isPaused = true →
      advanceAllSpec fuel p d l = .ok l2 →
      l2.find? (fun x => x.id == idv) = Option.some eP := by
  intro l
  induction l with
  | nil =>
      intro l2 eP hf
      simp [List.find?] at hf
  | cons x rest ih =>
      intro l2 eP hf hp h
      simp only [advanceAllSpec] at h
      by_cases hx : (x.id == idv) = true
      · rw [find_cons_pos idv x rest hx] at hf
        cases hf
        rw [ContinueCoroutine_paused x p d fuel hp] at h
        cases hrest : advanceAllSpec fuel p d rest with
        | outOfFuel => rw [hrest] at h; cases h
        | crash => rw [hrest] at h; cases h
        | ok rest2 =>
            rw [hrest] at h
            simp only [Bool.false_eq_true, if_neg, not_false_eq_true] at h
            cases h
            exact find_cons_pos idv x rest2 hx
      · have hx2 : (x.id == idv) = false := by simpa using hx
        rw [find_cons_neg idv x rest hx2] at hf
        cases hadv : ContinueCoroutine x p d fuel with
        | outOfFuel => rw [hadv] at h; cases h
        | crash => rw [hadv] at h; cases h
        | done b x2 =>
            rw [hadv] at h
            cases hrest : advanceAllSpec fuel p d rest with
            | outOfFuel => rw [hrest] at h; cases h
            | crash => rw [hrest] at h; cases h
            | ok rest2 =>
                rw [hrest] at h
                have hrec := ih rest2 eP hf hp hrest
                have hid2 : x2.id = x.id :=
                  (ContinueCoroutine_done_fields x p d fuel b x2 hadv).1
                cases b with
                | true =>
                    simp only [if_pos rfl] at h
                    cases h
                    exact hrec
                | false =>
                    simp only [Bool.false_eq_true, if_neg, not_false_eq_true] at h
                    cases h
                    rw [find_cons_neg idv x2 rest2 (by rw [hid2]; exact hx2)]
                    exact hrec

theorem runTicks_preserves_found_paused (fuel : ℕ) (idv : ℕ) :
    ∀ (params : List (SuspendPoint × ℤ × ℚ)) (st st2 : ExecutorState)
      (eP : Execution),
      st.executions.find? (fun x => x.id == idv) = Option.some eP →
      eP.isPaused = true →
      runTicks fuel params st = .ok st2 →
      st2.executions.find? (fun x => x.id == idv) = Option.some eP := by
  intro params
  induction params with
  | nil =>
      intro st st2 eP hf _ h
      cases h
      exact hf
  | cons prm rest ih =>
      obtain ⟨pp, fr, dt⟩ := prm
      intro st st2 eP hf hp h
      simp only [runTicks] at h
      cases hc : Continue fuel st pp fr dt with
      | outOfFuel => rw [hc] at h; cases h
      | crash => rw [hc] at h; cases h
      | ok st1 =>
          rw [hc] at h
          rw [Continue_eq_advanceAllSpec] at hc
          cases hall : advanceAllSpec fuel pp ⟨dt, fr⟩ st.executions with
          | outOfFuel => rw [hall] at hc; cases hc
          | crash => rw [hall] at hc; cases hc
          | ok l1 =>
              rw [hall] at hc
              simp only [OpResult.map] at hc
              cases hc
              exact ih _ st2 eP
                (advanceAllSpec_preserves_found_paused fuel pp ⟨dt, fr⟩ idv
                  st.executions l1 eP hf hp hall) hp h

/-- C7.  A paused execution's advance call returns not-finished leaving the
execution untouched; hence after Pause the handle's execution is the paused
copy of the original, any number of tick calls leaves it (step index,
accumulator and repeat budget included) unchanged in the registry, and a
Resume afterwards yields exactly the original state with only the paused
flag cleared — execution continues from that point. -/
theorem c7_pause_preserves_state_resume_continues (st : ExecutorState)
    (h : CoroutineHandle) (e : Execution) (fuel fuel2 : ℕ)
    (params : List (SuspendPoint × ℤ × ℚ)) (st2 : ExecutorState)
    (p : SuspendPoint) (d : Delta)
    (hfind : findExec st h.executionID = Option.some e)
    (hticks : runTicks fuel params (Pause st h).2 = .ok st2) :
    findExec (Pause st h).2 h.executionID =
      Option.some { e with isPaused := true } ∧
    ContinueCoroutine { e with isPaused := true } p d fuel2 =
      .done false { e with isPaused := true } ∧
    findExec st2 h.executionID = Option.some { e with isPaused := true } ∧
    findExec (Resume st2 h).2 h.executionID =
      Option.some { e with isPaused := false } := by
  obtain ⟨pre, suf, hl, hpre, hid, hP⟩ := Pause_found st h e hfind
  have hfP : findExec (Pause st h).2 h.executionID =
      Option.some { e with isPaused := true } := by
    rw [hP]
    exact find_append_first h.executionID { e with isPaused := true } suf hid
      pre hpre
  have hf2 : findExec st2 h.executionID =
      Option.some { e with isPaused := true } :=
    runTicks_preserves_found_paused fuel h.executionID params (Pause st h).2 st2
      { e with isPaused := true } hfP rfl hticks
  obtain ⟨pre2, suf2, hl2, hpre2, hid2, hR2⟩ := Resume_found st2 h _ hf2
  refine ⟨hfP, ContinueCoroutine_paused _ p d fuel2 rfl, hf2, ?_⟩
  rw [hR2]
  exact find_append_first h.executionID { e with isPaused := false } suf2 hid
    pre2 hpre2

/-- C7 (witness): pause, zero further ticks, then resume. -/
theorem c7_pause_preserves_state_resume_continues_witness :
    findExec (Pause ⟨[⟨[Step.waitUntil false], ⟨0, 0⟩, 0, 0, 1,
        SuspendPoint.update, false⟩], 1⟩ ⟨0, true⟩).2
        (⟨0, true⟩ : CoroutineHandle).executionID =
      Option.some ⟨[Step.waitUntil false], ⟨0, 0⟩, 0, 0, 1,
        SuspendPoint.update, true⟩ ∧
    ContinueCoroutine ⟨[Step.waitUntil false], ⟨0, 0⟩, 0, 0, 1,
        SuspendPoint.update, true⟩ SuspendPoint.update ⟨1, 2⟩ 3 =
      .done false ⟨[Step.waitUntil false], ⟨0, 0⟩, 0, 0, 1,
        SuspendPoint.update, true⟩ ∧
    findExec ⟨[⟨[Step.waitUntil false], ⟨0, 0⟩, 0, 0, 1, SuspendPoint.update,
        true⟩], 1⟩ (⟨0, true⟩ : CoroutineHandle).executionID =
      Option.some ⟨[Step.waitUntil false], ⟨0, 0⟩, 0, 0, 1,
        SuspendPoint.update, true⟩ ∧
    findExec (Resume ⟨[⟨[Step.waitUntil false], ⟨0, 0⟩, 0, 0, 1,
        SuspendPoint.update, true⟩], 1⟩ ⟨0, true⟩).2
        (⟨0, true⟩ : CoroutineHandle).executionID =
      Option.some ⟨[Step.waitUntil false], ⟨0, 0⟩, 0, 0, 1,
        SuspendPoint.update, false⟩ :=
  c7_pause_preserves_state_resume_continues
    ⟨[⟨[Step.waitUntil false], ⟨0, 0⟩, 0, 0, 1, SuspendPoint.update, false⟩], 1⟩
    ⟨0, true⟩ ⟨[Step.waitUntil false], ⟨0, 0⟩, 0, 0, 1, SuspendPoint.update,
      false⟩ 1 3 [] ⟨[⟨[Step.waitUntil false], ⟨0, 0⟩, 0, 0, 1,
      SuspendPoint.update, true⟩], 1⟩ SuspendPoint.update ⟨1, 2⟩ rfl rfl
